import Mathlib

/-!
Verification development for the "Low-Poly Vertex Paint Tools" Blender add-on
(`lowpoly_vertex_painting.py`).

The add-on's algorithmic core is embedded shallowly:

* RGBA colors (4-component float vectors in the source) are modelled as
  rational 4-vectors (`Color`); host floats are modelled exactly as rationals.
* The bmesh data the traversal touches (faces, per-face loop lists, per-loop
  colors, loop/vertex links, selection flags, paint-mask flags, vertex
  coordinates) is modelled by the `Mesh` structure.
* `connected_loops`, `color_equal`, `face_color`, `pick_vertex_color`,
  `fill_op_main`, `draw_face_op_main`, `select_linked_by_color_op_main` and
  `select_similar_by_color_op_main` are direct translations of the Python
  functions of the same names.  The `while` loop of `connected_loops` is
  realised as a fuel-indexed iteration (`floodRun`); the fuel
  `m.faces.length` is shown sufficient for well-formed meshes
  (the loop pops each face at most once).
* Host-side effects (ray casting, viewport, undo, `select_flush_mode`)
  are outside the embedded core; ray-cast results enter as explicit
  arguments, exactly as the functions consume them.
-/

set_option maxRecDepth 8000

namespace LowPoly

/-- RGBA color: the 4-component `mathutils.Vector` color values used by the
add-on, with float channels modelled as rationals. -/
structure Color where
  r : ℚ
  g : ℚ
  b : ℚ
  a : ℚ
deriving DecidableEq

/-- Componentwise sum of two color vectors (`Vector.__add__`). -/
def Color.add (v1 v2 : Color) : Color :=
  ⟨v1.r + v2.r, v1.g + v2.g, v1.b + v2.b, v1.a + v2.a⟩

/-- Componentwise difference of two color vectors (`Vector.__sub__`). -/
def Color.sub (v1 v2 : Color) : Color :=
  ⟨v1.r - v2.r, v1.g - v2.g, v1.b - v2.b, v1.a - v2.a⟩

/-- `Vector.length_squared`: sum of the squares of the 4 channels. -/
def Color.lengthSq (v : Color) : ℚ :=
  v.r ^ 2 + v.g ^ 2 + v.b ^ 2 + v.a ^ 2

/-- Componentwise division of a color vector by a scalar
(`Vector.__truediv__`).  Division by zero yields the zero vector in `ℚ`
(the Python source would raise; no caller of the embedding relies on the
zero-divisor case). -/
def Color.divQ (v : Color) (q : ℚ) : Color :=
  ⟨v.r / q, v.g / q, v.b / q, v.a / q⟩

/-- Source `color_equal(v1, v2, tolerance)`:
`(v1 - v2).length_squared / 3.0 <= tolerance`. -/
def color_equal (v1 v2 : Color) (tolerance : ℚ) : Bool :=
  decide ((Color.sub v1 v2).lengthSq / 3 ≤ tolerance)

/-- The bmesh data consumed by the add-on's operator bodies.  Faces, loops
and vertices are identified by natural-number ids.  `faces` lists the mesh's
faces (`bm.faces`); `faceLoops f` lists face `f`'s loops in winding order
(`face.loops` / `polygon.loop_indices`); `loopFace l` is `loop.face`;
`linkLoops l` is `loop.link_loops` (radial loops across the loop's edge);
`vertLinkLoops v` is `vert.link_loops`; `loopVert l` is `loop.vert`
(also `me.loops[l].vertex_index`); `loopColor l` is the loop's color in the
active color layer; `vertCo v` is the vertex coordinate `me.vertices[v].co`;
`faceSelect` / `vertSelect` are the selection flags; `usePaintMask` /
`usePaintMaskVertex` are `me.use_paint_mask` / `me.use_paint_mask_vertex`. -/
structure Mesh where
  faces : List ℕ
  faceLoops : ℕ → List ℕ
  loopFace : ℕ → ℕ
  linkLoops : ℕ → List ℕ
  vertLinkLoops : ℕ → List ℕ
  loopVert : ℕ → ℕ
  loopColor : ℕ → Color
  vertCo : ℕ → ℚ × ℚ × ℚ
  faceSelect : ℕ → Bool
  vertSelect : ℕ → Bool
  usePaintMask : Bool
  usePaintMaskVertex : Bool

/-- Source `face_color(bm, face)`: the average of the face's loop colors
(sum of the loop colors divided by the loop count). -/
def face_color (m : Mesh) (face : ℕ) : Color :=
  ((m.faceLoops face).foldl (fun (acc : Color) l => acc.add (m.loopColor l))
      (⟨0, 0, 0, 0⟩ : Color)).divQ
    ((m.faceLoops face).length : ℚ)

/-- State of the `while` loop of `connected_loops`: the frontier deque
`face_queue`, the visited set `face_set` and the result set `loop_set`.
The head of `queue` is the next face popped; `appendleft` pushes at the
tail (the Python deque is popped from its right end). -/
structure FState where
  queue : List ℕ
  faceSet : Finset ℕ
  loopSet : Finset ℕ
deriving DecidableEq

/-- `color_equal(loop[color_layer], color, tolerance)` for loop `l`: the
per-loop match test used throughout `connected_loops`. -/
def matchC (m : Mesh) (c : Color) (tol : ℚ) (l : ℕ) : Bool :=
  color_equal (m.loopColor l) c tol

/-- `loop.vert.link_loops if traverse_vertices else loop.link_loops`. -/
def conns (m : Mesh) (tv : Bool) (l : ℕ) : List ℕ :=
  if tv then m.vertLinkLoops (m.loopVert l) else m.linkLoops l

/-- `not selected_faces or face.select`: whether the popped face may be
visited. -/
def fmaskOK (m : Mesh) (sf : Bool) (f : ℕ) : Bool :=
  !sf || m.faceSelect f

/-- `not selected_vertices or loop.vert.select`: whether a matching loop may
be recorded. -/
def vmaskOK (m : Mesh) (sv : Bool) (l : ℕ) : Bool :=
  !sv || m.vertSelect (m.loopVert l)

/-- Innermost body of `connected_loops`: for a connected loop `cl`, if its
face is unvisited and its color matches, mark the face visited and push it
on the frontier. -/
def processConn (m : Mesh) (c : Color) (tol : ℚ) (st : FState) (cl : ℕ) : FState :=
  if m.loopFace cl ∉ st.faceSet ∧ matchC m c tol cl = true then
    ⟨st.queue ++ [m.loopFace cl], insert (m.loopFace cl) st.faceSet, st.loopSet⟩
  else st

/-- Body of `for loop in face.loops` in `connected_loops`: if the loop's
color matches, record it (subject to the vertex mask) and scan its connected
loops. -/
def processLoop (m : Mesh) (c : Color) (tol : ℚ) (tv sv : Bool) (st : FState) (l : ℕ) :
    FState :=
  if matchC m c tol l = true then
    (conns m tv l).foldl (processConn m c tol)
      (if vmaskOK m sv l = true then ⟨st.queue, st.faceSet, insert l st.loopSet⟩ else st)
  else st

/-- Processing of one popped face in `connected_loops`: skipped entirely
unless `not selected_faces or face.select`. -/
def processFace (m : Mesh) (c : Color) (tol : ℚ) (tv sf sv : Bool) (st : FState) (f : ℕ) :
    FState :=
  if fmaskOK m sf f = true then (m.faceLoops f).foldl (processLoop m c tol tv sv) st
  else st

/-- One iteration of the `while len(face_queue) > 0` loop: pop a face and
process it. -/
def floodStep (m : Mesh) (c : Color) (tol : ℚ) (tv sf sv : Bool) (st : FState) : FState :=
  match st.queue with
  | [] => st
  | f :: rest => processFace m c tol tv sf sv ⟨rest, st.faceSet, st.loopSet⟩ f

/-- Fuel-indexed iteration of the `while` loop of `connected_loops`; the
loop stops as soon as the frontier is empty. -/
def floodRun (m : Mesh) (c : Color) (tol : ℚ) (tv sf sv : Bool) : ℕ → FState → FState
  | 0, st => st
  | n + 1, st =>
    match st.queue with
    | [] => st
    | _ :: _ => floodRun m c tol tv sf sv n (floodStep m c tol tv sf sv st)

/-- Source `connected_loops(bm, starting_faces, color, tolerance,
traverse_vertices, selected_faces, selected_vertices)`.  The visited set is
seeded with the (deduplicated) starting faces, which also form the initial
frontier; when `color` is `none` it defaults to the average color of a seed
face (the Python `next(iter(face_set))` picks an arbitrary set element; the
embedding picks the first listed seed).  The fuel `m.faces.length` is
sufficient for well-formed meshes: the loop pops each face at most once. -/
def connected_loops (m : Mesh) (starting_faces : List ℕ) (color : Option Color)
    (tolerance : ℚ) (traverse_vertices selected_faces selected_vertices : Bool) :
    Finset ℕ :=
  let c := color.getD (face_color m starting_faces.headI)
  (floodRun m c tolerance traverse_vertices selected_faces selected_vertices
      m.faces.length ⟨starting_faces.dedup, starting_faces.toFinset, ∅⟩).loopSet

/-- Modelled from the spec: variant loop body in which the face mask gates
*recording only* — an unselected popped face still has its matching loops'
connected faces explored ("selection gates recording, not reachability");
only the `loop_set.add` is suppressed.  Used solely to compare the spec's
described behaviour with the source's `connected_loops`. -/
def processLoopRG (m : Mesh) (c : Color) (tol : ℚ) (tv sv : Bool) (fOK : Bool)
    (st : FState) (l : ℕ) : FState :=
  if matchC m c tol l = true then
    let st1 : FState :=
      if fOK && vmaskOK m sv l then ⟨st.queue, st.faceSet, insert l st.loopSet⟩ else st
    (conns m tv l).foldl (processConn m c tol) st1
  else st

/-- Modelled from the spec: face processing for the record-gating-only
variant — every popped face is traversed; the face mask only suppresses
recording of its corners. -/
def processFaceRG (m : Mesh) (c : Color) (tol : ℚ) (tv sf sv : Bool) (st : FState)
    (f : ℕ) : FState :=
  (m.faceLoops f).foldl (processLoopRG m c tol tv sv (fmaskOK m sf f)) st

/-- Modelled from the spec: driver loop for the record-gating-only variant. -/
def floodRunRG (m : Mesh) (c : Color) (tol : ℚ) (tv sf sv : Bool) : ℕ → FState → FState
  | 0, st => st
  | n + 1, st =>
    match st.queue with
    | [] => st
    | f :: rest =>
      floodRunRG m c tol tv sf sv n
        (processFaceRG m c tol tv sf sv ⟨rest, st.faceSet, st.loopSet⟩ f)

/-- Modelled from the spec: `floodFill` in which the face mask gates only
which corners are recorded, never traversal through a face (spec §3 and
§4.3).  Identical to `connected_loops` except for the face-mask placement. -/
def connected_loops_record_gated (m : Mesh) (starting_faces : List ℕ)
    (color : Option Color) (tolerance : ℚ)
    (traverse_vertices selected_faces selected_vertices : Bool) : Finset ℕ :=
  let c := color.getD (face_color m starting_faces.headI)
  (floodRunRG m c tolerance traverse_vertices selected_faces selected_vertices
      m.faces.length ⟨starting_faces.dedup, starting_faces.toFinset, ∅⟩).loopSet

/-! ### Color sampling, fill, draw and selection operators -/

/-- RGBA color with real channels: the accumulator built by
`pick_vertex_color` mixes rational loop colors with Euclidean distances. -/
structure RColor where
  r : ℝ
  g : ℝ
  b : ℝ
  a : ℝ

/-- `(location_vector - loop_position).length`: Euclidean distance between
two 3-D points with rational coordinates. -/
noncomputable def dist3 (p q : ℚ × ℚ × ℚ) : ℝ :=
  Real.sqrt (((p.1 - q.1 : ℚ) : ℝ) ^ 2 + ((p.2.1 - q.2.1 : ℚ) : ℝ) ^ 2 +
    ((p.2.2 - q.2.2 : ℚ) : ℝ) ^ 2)

/-- One iteration of the accumulation loop of `pick_vertex_color`:
`total += distance; color += loop_color * distance` for one loop of the hit
face. -/
noncomputable def pickStep (m : Mesh) (location : ℚ × ℚ × ℚ) (p : ℝ × RColor)
    (l : ℕ) : ℝ × RColor :=
  let distance := dist3 location (m.vertCo (m.loopVert l))
  let lc := m.loopColor l
  (p.1 + distance,
    ⟨p.2.r + (lc.r : ℝ) * distance, p.2.g + (lc.g : ℝ) * distance,
     p.2.b + (lc.b : ℝ) * distance, p.2.a + (lc.a : ℝ) * distance⟩)

/-- Source `pick_vertex_color(context, obj, region_x, region_y)`: the host
ray cast (`pick_vertex`) enters as `hit`, carrying the hit location and hit
face index when there is a hit.  On a hit, the hit face's loop colors are
accumulated weighted by each loop vertex's distance to the hit location
(`total` and `color` of the source), and the accumulated color is divided
by the total distance only when `total > 0`.  On a miss the zero color is
returned unchanged (the host's miss index `-1` is modelled as `0`; the
source never uses it when `result` is false). -/
noncomputable def pick_vertex_color (m : Mesh) (hit : Option ((ℚ × ℚ × ℚ) × ℕ)) :
    Bool × RColor × ℕ :=
  match hit with
  | none => (false, ⟨0, 0, 0, 0⟩, 0)
  | some (location, index) =>
    let acc := (m.faceLoops index).foldl (pickStep m location)
      ((0 : ℝ), (⟨0, 0, 0, 0⟩ : RColor))
    (true,
      if acc.1 > 0 then
        ⟨acc.2.r / acc.1, acc.2.g / acc.1, acc.2.b / acc.1, acc.2.a / acc.1⟩
      else acc.2,
      index)

/-- Source `fill_op_main(context, x, y, color, tolerance, continuous,
traverse_vertices)`: the host ray-cast-and-sample result — the triple
returned by `pick_vertex_color` — enters as the explicit arguments
`result`, `target_color`, `index` (the sampled float color modelled as a
rational color).  When `result` is false nothing happens; otherwise either
the continuous flood fill recolors the connected loops, or every matching
loop of the whole mesh is recolored. -/
def fill_op_main (m : Mesh) (result : Bool) (target_color : Color) (index : ℕ)
    (color : ℚ × ℚ × ℚ) (tolerance : ℚ) (continuous traverse_vertices : Bool) : Mesh :=
  if result then
    let color4 : Color := ⟨color.1, color.2.1, color.2.2, 1⟩
    if continuous then
      let loops := connected_loops m [index] (some target_color) tolerance
        traverse_vertices m.usePaintMask m.usePaintMaskVertex
      -- `for loop in connected_loops(...): loop[color_layer] = color4`;
      -- every iteration writes the same constant, so the loop is the
      -- pointwise update over the returned set.
      let newColors := fun x => if x ∈ loops then color4 else m.loopColor x
      { m with loopColor := newColors }
    else
      let newColors := m.faces.foldl (fun col f =>
        (m.faceLoops f).foldl (fun col2 l =>
          if color_equal target_color (col2 l) tolerance = true then
            fun x => if x = l then color4 else col2 x
          else col2) col) m.loopColor
      { m with loopColor := newColors }
  else m

/-- `for loop_index in polygon.loop_indices: colors[loop_index].color =
color_array` in `draw_face_op_main`: paint every loop of one face. -/
def paint_polygon (m : Mesh) (index : ℕ) (color_array : Color) : Mesh :=
  let newColors := (m.faceLoops index).foldl
    (fun col li => fun x => if x = li then color_array else col x) m.loopColor
  { m with loopColor := newColors }

/-- Per-sample body of the loop of `draw_face_op_main`: on a ray miss
nothing happens; on a hit the face is painted unless a paint mask is active
and the face is unselected. -/
def draw_sample (m : Mesh) (hit : Option ℕ) (color_array : Color)
    (selected_faces_only : Bool) : Mesh :=
  match hit with
  | none => m
  | some index =>
    if !selected_faces_only || m.faceSelect index then paint_polygon m index color_array
    else m

/-- `n = max(1, floor(length / 2))` of `draw_face_op_main`, where `length`
is the Euclidean pixel distance between the two screen points. -/
noncomputable def draw_step_count (x1 y1 x2 y2 : ℤ) : ℕ :=
  let dx := x1 - x2
  let dy := y1 - y2
  let length : ℝ := Real.sqrt (((dx * dx + dy * dy : ℤ) : ℝ))
  max 1 (⌊length / 2⌋).toNat

/-- Source `draw_face_op_main(self, context)`: the screen segment
`(x1,y1) – (x2,y2)` is sampled at `n` interpolated points; the host
projection-and-BVH-ray-cast (`bvh.ray_cast` preceded by
`region_2d_to_origin_3d` / `region_2d_to_vector_3d`) enters as `ray_hit`,
mapping a screen point to the hit face index (if any); each hit face is
painted solid. -/
noncomputable def draw_face_op_main (m : Mesh) (ray_hit : ℚ × ℚ → Option ℕ)
    (x1 y1 x2 y2 : ℤ) (color : ℚ × ℚ × ℚ) : Mesh :=
  let color_array : Color := ⟨color.1, color.2.1, color.2.2, 1⟩
  let selected_faces_only := m.usePaintMask || m.usePaintMaskVertex
  let n := draw_step_count x1 y1 x2 y2
  (List.range n).foldl (fun (mm : Mesh) (i : ℕ) =>
    let t : ℚ := if n = 1 then 1 / 2 else (i : ℚ) / ((n : ℚ) - 1)
    let x := (1 - t) * (x1 : ℚ) + t * (x2 : ℚ)
    let y := (1 - t) * (y1 : ℚ) + t * (y2 : ℚ)
    draw_sample mm (ray_hit (x, y)) color_array selected_faces_only) m

/-- Source `select_linked_by_color_op_main(context)`: flood-fills from the
selected faces with the default tolerance `0.001` and vertex traversal, and
selects every face owning a returned loop (`loop.face.select = True`).
The host-side `select_flush_mode` / `me.update()` calls are outside the
embedded mesh data. -/
def select_linked_by_color_op_main (m : Mesh) : Mesh :=
  let loops := connected_loops m (m.faces.filter (fun face => m.faceSelect face)) none
    (1 / 1000) true false false
  -- `for loop in connected_loops(...): loop.face.select = True`; every
  -- iteration writes `True`, so the loop is the pointwise update over the
  -- image of `loop.face`.
  let newSelect := fun x => if x ∈ loops.image m.loopFace then true else m.faceSelect x
  { m with faceSelect := newSelect }

/-- Source `select_similar_by_color_op_main(context, tolerance)`: takes the
average color of the *first* selected face (`next(iter(filter(...)))`) and
selects every face of the mesh whose average color matches it. -/
def select_similar_by_color_op_main (m : Mesh) (tolerance : ℚ) : Mesh :=
  let color := face_color m ((m.faces.filter (fun face => m.faceSelect face)).headI)
  let newSelect := m.faces.foldl (fun sel face =>
    if color_equal color (face_color m face) tolerance = true then
      fun x => if x = face then true else sel x
    else sel) m.faceSelect
  { m with faceSelect := newSelect }

/-! ### Flood-fill theory: reachability, invariants, termination measure -/

/-- Termination measure for the `connected_loops` loop: frontier length plus
the number of mesh faces not yet visited. -/
def mu (m : Mesh) (st : FState) : ℕ :=
  st.queue.length + (m.faces.toFinset \ st.faceSet).card

/-- The mesh well-formedness bmesh guarantees and the traversal relies on:
a loop listed on a face belongs to that face, and the faces of a loop's
connected loops are mesh faces. -/
def Mesh.WF (m : Mesh) (tv : Bool) : Prop :=
  ∀ f ∈ m.faces, ∀ l ∈ m.faceLoops f,
    m.loopFace l = f ∧ ∀ cl ∈ conns m tv l, m.loopFace cl ∈ m.faces

instance (m : Mesh) (tv : Bool) : Decidable (Mesh.WF m tv) := by
  unfold Mesh.WF
  infer_instance

/-- The faces the `connected_loops` loop visits: the seed faces and,
inductively, the face of any color-matching connected loop of a
color-matching loop of a visited face that passes the face mask. -/
inductive Reaches (m : Mesh) (c : Color) (tol : ℚ) (tv sf : Bool) (seeds : List ℕ) :
    ℕ → Prop
  | seed (f : ℕ) : f ∈ seeds → Reaches m c tol tv sf seeds f
  | step (g l cl : ℕ) : Reaches m c tol tv sf seeds g → fmaskOK m sf g = true →
      l ∈ m.faceLoops g → matchC m c tol l = true → cl ∈ conns m tv l →
      matchC m c tol cl = true → Reaches m c tol tv sf seeds (m.loopFace cl)

/-- Specification of the recorded loop set: a loop is recorded exactly when
it is a matching, vertex-mask-passing loop of some visited face that passes
the face mask. -/
def RecSpec (m : Mesh) (c : Color) (tol : ℚ) (tv sf sv : Bool) (seeds : List ℕ)
    (l : ℕ) : Prop :=
  ∃ f, Reaches m c tol tv sf seeds f ∧ fmaskOK m sf f = true ∧ l ∈ m.faceLoops f ∧
    matchC m c tol l = true ∧ vmaskOK m sv l = true

/-- A face has been fully processed in state `st`: all consequences of
popping it are already present in `st`. -/
def Done (m : Mesh) (c : Color) (tol : ℚ) (tv sv : Bool) (st : FState) (f : ℕ) :
    Prop :=
  ∀ l ∈ m.faceLoops f, matchC m c tol l = true →
    (vmaskOK m sv l = true → l ∈ st.loopSet) ∧
    (∀ cl ∈ conns m tv l, matchC m c tol cl = true → m.loopFace cl ∈ st.faceSet)

/-- Loop invariant of `connected_loops` that holds at every point between
loop-body iterations (soundness clauses). -/
structure Inv0 (m : Mesh) (c : Color) (tol : ℚ) (tv sf sv : Bool) (seeds : List ℕ)
    (st : FState) : Prop where
  nodup : st.queue.Nodup
  qsub : ∀ f ∈ st.queue, f ∈ st.faceSet
  fsub : ∀ f ∈ st.faceSet, f ∈ m.faces
  freach : ∀ f ∈ st.faceSet, Reaches m c tol tv sf seeds f
  lrec : ∀ l ∈ st.loopSet, RecSpec m c tol tv sf sv seeds l

/-- Full loop invariant: the soundness clauses plus completeness — every
visited face that is no longer on the frontier has been fully processed
(subject to the face mask). -/
structure Inv (m : Mesh) (c : Color) (tol : ℚ) (tv sf sv : Bool) (seeds : List ℕ)
    (st : FState) extends Inv0 m c tol tv sf sv seeds st : Prop where
  processed : ∀ f ∈ st.faceSet, f ∉ st.queue →
    fmaskOK m sf f = true → Done m c tol tv sv st f

/-- How one loop-body fragment may transform the state: the visited and
recorded sets only grow, the frontier is only appended to, every newly
visited face is still on the frontier, and the termination measure does not
increase. -/
structure StepExt (m : Mesh) (st st' : FState) : Prop where
  fsub : st.faceSet ⊆ st'.faceSet
  lsub : st.loopSet ⊆ st'.loopSet
  qext : ∃ ext, st'.queue = st.queue ++ ext
  newq : ∀ g ∈ st'.faceSet, g ∈ st.faceSet ∨ g ∈ st'.queue
  mule : mu m st' ≤ mu m st

/-- The state of `connected_loops` after its loop has run, for an already
resolved reference color. -/
def floodFinal (m : Mesh) (c : Color) (tol : ℚ) (tv sf sv : Bool) (seeds : List ℕ) :
    FState :=
  floodRun m c tol tv sf sv m.faces.length ⟨seeds.dedup, seeds.toFinset, ∅⟩

/-! ### Concrete meshes used in counterexamples and witnesses -/

/-- A single triangle-free "face" with a color gradient: one face `0` with
two loops `0, 1`, loop `0` red and loop `1` blue.  Its average color matches
neither loop at tolerance `0`. -/
def meshGradient : Mesh where
  faces := [0]
  faceLoops := fun f => if f = 0 then [0, 1] else []
  loopFace := fun _ => 0
  linkLoops := fun _ => []
  vertLinkLoops := fun v => [v]
  loopVert := fun l => l
  loopColor := fun l => if l = 0 then ⟨1, 0, 0, 1⟩ else ⟨0, 0, 1, 1⟩
  vertCo := fun _ => (0, 0, 0)
  faceSelect := fun _ => true
  vertSelect := fun _ => true
  usePaintMask := false
  usePaintMaskVertex := false

/-- A chain of three uniformly red faces `0 – 1 – 2`, edge-linked through
loops `1 ↔ 2` and `3 ↔ 4`; face `1` (the middle one) is unselected, faces
`0` and `2` are selected. -/
def meshChain : Mesh where
  faces := [0, 1, 2]
  faceLoops := fun f => if f = 0 then [0, 1] else if f = 1 then [2, 3]
    else if f = 2 then [4, 5] else []
  loopFace := fun l => if l ≤ 1 then 0 else if l ≤ 3 then 1 else 2
  linkLoops := fun l => if l = 1 then [2] else if l = 2 then [1]
    else if l = 3 then [4] else if l = 4 then [3] else []
  vertLinkLoops := fun v => [v]
  loopVert := fun l => l
  loopColor := fun _ => ⟨1, 0, 0, 1⟩
  vertCo := fun _ => (0, 0, 0)
  faceSelect := fun f => !(f = 1)
  vertSelect := fun _ => true
  usePaintMask := false
  usePaintMaskVertex := false

/-- Two uniformly red faces `0` and `1`, edge-linked through loops `1 ↔ 2`,
everything selected. -/
def meshUniform : Mesh where
  faces := [0, 1]
  faceLoops := fun f => if f = 0 then [0, 1] else if f = 1 then [2, 3] else []
  loopFace := fun l => if l ≤ 1 then 0 else 1
  linkLoops := fun l => if l = 1 then [2] else if l = 2 then [1] else []
  vertLinkLoops := fun v => [v]
  loopVert := fun l => l
  loopColor := fun _ => ⟨1, 0, 0, 1⟩
  vertCo := fun _ => (0, 0, 0)
  faceSelect := fun _ => true
  vertSelect := fun _ => true
  usePaintMask := false
  usePaintMaskVertex := false

/-- Three faces: face `0` red and selected, face `1` blue and selected,
face `2` blue and unselected.  Face `f` owns loops `2f` and `2f + 1`. -/
def meshTwoTone : Mesh where
  faces := [0, 1, 2]
  faceLoops := fun f => if f ≤ 2 then [2 * f, 2 * f + 1] else []
  loopFace := fun l => l / 2
  linkLoops := fun _ => []
  vertLinkLoops := fun v => [v]
  loopVert := fun l => l
  loopColor := fun l => if l ≤ 1 then ⟨1, 0, 0, 1⟩ else ⟨0, 0, 1, 1⟩
  vertCo := fun _ => (0, 0, 0)
  faceSelect := fun f => f ≤ 1
  vertSelect := fun _ => true
  usePaintMask := false
  usePaintMaskVertex := false

/-! ### Lemmas: loop-body state evolution -/

theorem StepExt.refl (m : Mesh) (st : FState) : StepExt m st st :=
  ⟨subset_rfl, subset_rfl, ⟨[], (List.append_nil _).symm⟩, fun _ hg => Or.inl hg, le_rfl⟩

theorem StepExt.qmem {m : Mesh} {st st' : FState} (h : StepExt m st st') :
    ∀ g ∈ st.queue, g ∈ st'.queue := by
  intro g hg
  obtain ⟨ext, hext⟩ := h.qext
  rw [hext]
  exact List.mem_append_left _ hg

theorem StepExt.trans {m : Mesh} {st1 st2 st3 : FState} (h1 : StepExt m st1 st2)
    (h2 : StepExt m st2 st3) : StepExt m st1 st3 := by
  refine ⟨h1.fsub.trans h2.fsub, h1.lsub.trans h2.lsub, ?_, ?_, h2.mule.trans h1.mule⟩
  · obtain ⟨e1, he1⟩ := h1.qext
    obtain ⟨e2, he2⟩ := h2.qext
    exact ⟨e1 ++ e2, by rw [he2, he1, List.append_assoc]⟩
  · intro g hg
    rcases h2.newq g hg with h2f | h2q
    · rcases h1.newq g h2f with h1f | h1q
      · exact Or.inl h1f
      · exact Or.inr (h2.qmem g h1q)
    · exact Or.inr h2q

theorem processConn_stepExt {m : Mesh} {c : Color} {tol : ℚ} (st : FState) (cl : ℕ)
    (hcl : matchC m c tol cl = true → m.loopFace cl ∈ m.faces) :
    StepExt m st (processConn m c tol st cl) := by
  unfold processConn
  split
  case isTrue h =>
    have hface : m.loopFace cl ∈ m.faces.toFinset \ st.faceSet := by
      rw [Finset.mem_sdiff, List.mem_toFinset]
      exact ⟨hcl h.2, h.1⟩
    refine ⟨Finset.subset_insert _ _, subset_rfl, ⟨[m.loopFace cl], rfl⟩, ?_, ?_⟩
    · intro g hg
      rcases Finset.mem_insert.mp hg with hg | hg
      · exact Or.inr (by simp [hg])
      · exact Or.inl hg
    · have hcard : (m.faces.toFinset \ insert (m.loopFace cl) st.faceSet).card =
          (m.faces.toFinset \ st.faceSet).card - 1 := by
        rw [Finset.sdiff_insert, Finset.card_erase_of_mem hface]
      have hpos : 1 ≤ (m.faces.toFinset \ st.faceSet).card :=
        Finset.card_pos.mpr ⟨_, hface⟩
      simp only [mu, List.length_append, List.length_singleton, hcard]
      omega
  case isFalse h => exact StepExt.refl m st

theorem processConn_inv0 {m : Mesh} {c : Color} {tol : ℚ} {tv sf sv : Bool}
    {seeds : List ℕ} {st : FState} (cl : ℕ)
    (hcl : matchC m c tol cl = true →
      Reaches m c tol tv sf seeds (m.loopFace cl) ∧ m.loopFace cl ∈ m.faces)
    (h : Inv0 m c tol tv sf sv seeds st) :
    Inv0 m c tol tv sf sv seeds (processConn m c tol st cl) := by
  unfold processConn
  split
  case isTrue hc =>
    obtain ⟨hreach, hmem⟩ := hcl hc.2
    refine ⟨?_, ?_, ?_, ?_, h.lrec⟩
    · rw [List.nodup_append]
      refine ⟨h.nodup, List.nodup_singleton _, ?_⟩
      intro g hg hg'
      rw [List.mem_singleton] at hg'
      exact hc.1 (hg' ▸ h.qsub g hg)
    · intro g hg
      rcases List.mem_append.mp hg with hg | hg
      · exact Finset.mem_insert_of_mem (h.qsub g hg)
      · rw [List.mem_singleton] at hg
        exact hg ▸ Finset.mem_insert_self _ _
    · intro g hg
      rcases Finset.mem_insert.mp hg with hg | hg
      · exact hg ▸ hmem
      · exact h.fsub g hg
    · intro g hg
      rcases Finset.mem_insert.mp hg with hg | hg
      · exact hg ▸ hreach
      · exact h.freach g hg
  case isFalse hc => exact h

theorem processConn_mem {m : Mesh} {c : Color} {tol : ℚ} (st : FState) (cl : ℕ)
    (hm : matchC m c tol cl = true) :
    m.loopFace cl ∈ (processConn m c tol st cl).faceSet := by
  unfold processConn
  split
  case isTrue hc => exact Finset.mem_insert_self _ _
  case isFalse hc =>
    by_cases hmem : m.loopFace cl ∈ st.faceSet
    · exact hmem
    · exact absurd ⟨hmem, hm⟩ hc

theorem foldConn_stepExt {m : Mesh} {c : Color} {tol : ℚ} (cls : List ℕ) (st : FState)
    (hcls : ∀ cl ∈ cls, matchC m c tol cl = true → m.loopFace cl ∈ m.faces) :
    StepExt m st (cls.foldl (processConn m c tol) st) := by
  induction cls generalizing st with
  | nil => exact StepExt.refl m st
  | cons cl cls ih =>
    rw [List.foldl_cons]
    exact (processConn_stepExt st cl (hcls cl (by simp))).trans
      (ih _ (fun cl' h' hm => hcls cl' (List.mem_cons_of_mem _ h') hm))

theorem foldConn_inv0 {m : Mesh} {c : Color} {tol : ℚ} {tv sf sv : Bool}
    {seeds : List ℕ} (cls : List ℕ) (st : FState)
    (hcls : ∀ cl ∈ cls, matchC m c tol cl = true →
      Reaches m c tol tv sf seeds (m.loopFace cl) ∧ m.loopFace cl ∈ m.faces)
    (h : Inv0 m c tol tv sf sv seeds st) :
    Inv0 m c tol tv sf sv seeds (cls.foldl (processConn m c tol) st) := by
  induction cls generalizing st with
  | nil => exact h
  | cons cl cls ih =>
    rw [List.foldl_cons]
    exact ih _ (fun cl' h' => hcls cl' (List.mem_cons_of_mem _ h'))
      (processConn_inv0 cl (hcls cl (by simp)) h)

theorem foldConn_mem {m : Mesh} {c : Color} {tol : ℚ} (cls : List ℕ) (st : FState)
    (hcls : ∀ cl ∈ cls, matchC m c tol cl = true → m.loopFace cl ∈ m.faces) :
    ∀ cl ∈ cls, matchC m c tol cl = true →
      m.loopFace cl ∈ (cls.foldl (processConn m c tol) st).faceSet := by
  induction cls generalizing st with
  | nil => intro cl h; cases h
  | cons cl0 cls ih =>
    intro cl hmem hm
    rw [List.foldl_cons]
    rcases List.mem_cons.mp hmem with h | h
    · subst h
      exact (foldConn_stepExt cls _
        (fun cl' h' hm' => hcls cl' (List.mem_cons_of_mem _ h') hm')).fsub
        (processConn_mem st cl hm)
    · exact ih _ (fun cl' h' => hcls cl' (List.mem_cons_of_mem _ h')) cl h hm

/-! ### Lemmas: per-loop processing -/

theorem processLoop_stepExt {m : Mesh} {c : Color} {tol : ℚ} {tv sv : Bool}
    (st : FState) (l : ℕ) (hwf : Mesh.WF m tv) {f : ℕ} (hff : f ∈ m.faces)
    (hl : l ∈ m.faceLoops f) :
    StepExt m st (processLoop m c tol tv sv st l) := by
  unfold processLoop
  split
  case isTrue hml =>
    refine @StepExt.trans m st (if vmaskOK m sv l = true then
      ⟨st.queue, st.faceSet, insert l st.loopSet⟩ else st) _ ?_ ?_
    · split
      · exact ⟨subset_rfl, Finset.subset_insert _ _, ⟨[], (List.append_nil _).symm⟩,
          fun _ hg => Or.inl hg, le_rfl⟩
      · exact StepExt.refl m st
    · exact foldConn_stepExt _ _ (fun cl hcl hm => ((hwf f hff l hl).2) cl hcl)
  case isFalse hml => exact StepExt.refl m st

theorem processLoop_inv0 {m : Mesh} {c : Color} {tol : ℚ} {tv sf sv : Bool}
    {seeds : List ℕ} (st : FState) (l : ℕ) (hwf : Mesh.WF m tv) {f : ℕ}
    (hf : Reaches m c tol tv sf seeds f) (hfm : fmaskOK m sf f = true)
    (hff : f ∈ m.faces) (hl : l ∈ m.faceLoops f)
    (h : Inv0 m c tol tv sf sv seeds st) :
    Inv0 m c tol tv sf sv seeds (processLoop m c tol tv sv st l) := by
  unfold processLoop
  split
  case isTrue hml =>
    refine foldConn_inv0 _ _
      (fun cl hcl hm => ⟨Reaches.step f l cl hf hfm hl hml hcl hm,
        ((hwf f hff l hl).2) cl hcl⟩) ?_
    split
    case isTrue hv =>
      refine ⟨h.nodup, h.qsub, h.fsub, h.freach, ?_⟩
      intro x hx
      rcases Finset.mem_insert.mp hx with hx | hx
      · exact hx ▸ ⟨f, hf, hfm, hl, hml, hv⟩
      · exact h.lrec x hx
    case isFalse hv => exact h
  case isFalse hml => exact h

theorem processLoop_done {m : Mesh} {c : Color} {tol : ℚ} {tv sv : Bool}
    (st : FState) (l : ℕ) (hwf : Mesh.WF m tv) {f : ℕ} (hff : f ∈ m.faces)
    (hl : l ∈ m.faceLoops f) (hml : matchC m c tol l = true) :
    (vmaskOK m sv l = true → l ∈ (processLoop m c tol tv sv st l).loopSet) ∧
    (∀ cl ∈ conns m tv l, matchC m c tol cl = true →
      m.loopFace cl ∈ (processLoop m c tol tv sv st l).faceSet) := by
  unfold processLoop
  rw [if_pos hml]
  constructor
  · intro hv
    rw [if_pos hv]
    exact (foldConn_stepExt _ _ (fun cl hcl hm => ((hwf f hff l hl).2) cl hcl)).lsub
      (Finset.mem_insert_self _ _)
  · exact foldConn_mem _ _ (fun cl hcl hm => ((hwf f hff l hl).2) cl hcl)

/-! ### Lemmas: per-face processing -/

theorem foldLoop_stepExt {m : Mesh} {c : Color} {tol : ℚ} {tv sv : Bool}
    (ls : List ℕ) (st : FState) (hwf : Mesh.WF m tv) {f : ℕ} (hff : f ∈ m.faces)
    (hls : ∀ l ∈ ls, l ∈ m.faceLoops f) :
    StepExt m st (ls.foldl (processLoop m c tol tv sv) st) := by
  induction ls generalizing st with
  | nil => exact StepExt.refl m st
  | cons l ls ih =>
    rw [List.foldl_cons]
    exact (processLoop_stepExt st l hwf hff (hls l (by simp))).trans
      (ih _ (fun l' h' => hls l' (List.mem_cons_of_mem _ h')))

theorem foldLoop_inv0 {m : Mesh} {c : Color} {tol : ℚ} {tv sf sv : Bool}
    {seeds : List ℕ} (ls : List ℕ) (st : FState) (hwf : Mesh.WF m tv) {f : ℕ}
    (hf : Reaches m c tol tv sf seeds f) (hfm : fmaskOK m sf f = true)
    (hff : f ∈ m.faces) (hls : ∀ l ∈ ls, l ∈ m.faceLoops f)
    (h : Inv0 m c tol tv sf sv seeds st) :
    Inv0 m c tol tv sf sv seeds (ls.foldl (processLoop m c tol tv sv) st) := by
  induction ls generalizing st with
  | nil => exact h
  | cons l ls ih =>
    rw [List.foldl_cons]
    exact ih _ (fun l' h' => hls l' (List.mem_cons_of_mem _ h'))
      (processLoop_inv0 st l hwf hf hfm hff (hls l (by simp)) h)

theorem foldLoop_done {m : Mesh} {c : Color} {tol : ℚ} {tv sv : Bool}
    (ls : List ℕ) (st : FState) (hwf : Mesh.WF m tv) {f : ℕ} (hff : f ∈ m.faces)
    (hls : ∀ l ∈ ls, l ∈ m.faceLoops f) :
    ∀ l ∈ ls, matchC m c tol l = true →
      (vmaskOK m sv l = true → l ∈ (ls.foldl (processLoop m c tol tv sv) st).loopSet) ∧
      (∀ cl ∈ conns m tv l, matchC m c tol cl = true →
        m.loopFace cl ∈ (ls.foldl (processLoop m c tol tv sv) st).faceSet) := by
  induction ls generalizing st with
  | nil => intro l h; cases h
  | cons l0 ls ih =>
    intro l hmem hml
    rw [List.foldl_cons]
    rcases List.mem_cons.mp hmem with h | h
    · subst h
      have hrest := @foldLoop_stepExt m c tol tv sv ls
        (processLoop m c tol tv sv st l) hwf f hff
        (fun l' h' => hls l' (List.mem_cons_of_mem _ h'))
      have hd := @processLoop_done m c tol tv sv st l hwf f hff (hls l (by simp)) hml
      exact ⟨fun hv => hrest.lsub (hd.1 hv),
        fun cl hcl hm => hrest.fsub (hd.2 cl hcl hm)⟩
    · exact ih _ (fun l' h' => hls l' (List.mem_cons_of_mem _ h')) l h hml

theorem processFace_stepExt {m : Mesh} {c : Color} {tol : ℚ} {tv sf sv : Bool}
    (st : FState) (f : ℕ) (hwf : Mesh.WF m tv) (hff : f ∈ m.faces) :
    StepExt m st (processFace m c tol tv sf sv st f) := by
  unfold processFace
  split
  · exact foldLoop_stepExt _ _ hwf hff (fun l h => h)
  · exact StepExt.refl m st

theorem processFace_inv0 {m : Mesh} {c : Color} {tol : ℚ} {tv sf sv : Bool}
    {seeds : List ℕ} (st : FState) (f : ℕ) (hwf : Mesh.WF m tv)
    (hf : Reaches m c tol tv sf seeds f) (hff : f ∈ m.faces)
    (h : Inv0 m c tol tv sf sv seeds st) :
    Inv0 m c tol tv sf sv seeds (processFace m c tol tv sf sv st f) := by
  unfold processFace
  split
  case isTrue hfm => exact foldLoop_inv0 _ _ hwf hf hfm hff (fun l h' => h') h
  case isFalse hfm => exact h

theorem processFace_done {m : Mesh} {c : Color} {tol : ℚ} {tv sf sv : Bool}
    (st : FState) (f : ℕ) (hwf : Mesh.WF m tv) (hff : f ∈ m.faces)
    (hfm : fmaskOK m sf f = true) :
    Done m c tol tv sv (processFace m c tol tv sf sv st f) f := by
  unfold processFace
  rw [if_pos hfm]
  exact fun l hl hml => foldLoop_done _ _ hwf hff (fun l' h' => h') l hl hml

theorem Done.mono {m : Mesh} {c : Color} {tol : ℚ} {tv sv : Bool} {st st' : FState}
    {f : ℕ} (h : Done m c tol tv sv st f) (hfs : st.faceSet ⊆ st'.faceSet)
    (hls : st.loopSet ⊆ st'.loopSet) : Done m c tol tv sv st' f := by
  intro l hl hml
  exact ⟨fun hv => hls ((h l hl hml).1 hv),
    fun cl hcl hm => hfs ((h l hl hml).2 cl hcl hm)⟩

/-! ### Lemmas: the while loop -/

theorem floodStep_inv {m : Mesh} {c : Color} {tol : ℚ} {tv sf sv : Bool}
    {seeds : List ℕ} (st : FState) (hwf : Mesh.WF m tv)
    (h : Inv m c tol tv sf sv seeds st) :
    Inv m c tol tv sf sv seeds (floodStep m c tol tv sf sv st) := by
  unfold floodStep
  split
  case h_1 => exact h
  case h_2 f rest heq =>
    have hfq : f ∈ st.queue := by rw [heq]; simp
    have hfS : f ∈ st.faceSet := h.qsub f hfq
    have hf : Reaches m c tol tv sf seeds f := h.freach f hfS
    have hff : f ∈ m.faces := h.fsub f hfS
    have h0 : Inv0 m c tol tv sf sv seeds ⟨rest, st.faceSet, st.loopSet⟩ := by
      refine ⟨?_, ?_, h.fsub, h.freach, h.lrec⟩
      · have := h.nodup
        rw [heq] at this
        exact this.of_cons
      · intro g hg
        exact h.qsub g (by rw [heq]; exact List.mem_cons_of_mem _ hg)
    have hext := @processFace_stepExt m c tol tv sf sv
      ⟨rest, st.faceSet, st.loopSet⟩ f hwf hff
    refine ⟨processFace_inv0 _ f hwf hf hff h0, ?_⟩
    intro g hgF hgQ hgm
    rcases hext.newq g hgF with hg1 | hgq
    · by_cases hgf : g = f
      · subst hgf
        exact processFace_done _ g hwf hff hgm
      · have hnotq : g ∉ st.queue := by
          rw [heq]
          intro hc
          rcases List.mem_cons.mp hc with hc | hc
          · exact hgf hc
          · exact hgQ (hext.qmem g hc)
        exact (h.processed g hg1 hnotq hgm).mono hext.fsub hext.lsub
    · exact absurd hgq hgQ

theorem floodStep_sub {m : Mesh} {c : Color} {tol : ℚ} {tv sf sv : Bool}
    {seeds : List ℕ} (st : FState) (hwf : Mesh.WF m tv)
    (h : Inv0 m c tol tv sf sv seeds st) :
    st.faceSet ⊆ (floodStep m c tol tv sf sv st).faceSet ∧
    st.loopSet ⊆ (floodStep m c tol tv sf sv st).loopSet := by
  unfold floodStep
  split
  case h_1 => exact ⟨subset_rfl, subset_rfl⟩
  case h_2 f rest heq =>
    have hff : f ∈ m.faces := h.fsub f (h.qsub f (by rw [heq]; simp))
    have hext := @processFace_stepExt m c tol tv sf sv
      ⟨rest, st.faceSet, st.loopSet⟩ f hwf hff
    exact ⟨hext.fsub, hext.lsub⟩

theorem floodStep_mu {m : Mesh} {c : Color} {tol : ℚ} {tv sf sv : Bool}
    {seeds : List ℕ} (st : FState) (hwf : Mesh.WF m tv)
    (h : Inv0 m c tol tv sf sv seeds st) (hne : st.queue ≠ []) :
    mu m (floodStep m c tol tv sf sv st) < mu m st := by
  unfold floodStep
  split
  case h_1 heq => exact absurd heq hne
  case h_2 f rest heq =>
    have hff : f ∈ m.faces := h.fsub f (h.qsub f (by rw [heq]; simp))
    have hext := @processFace_stepExt m c tol tv sf sv
      ⟨rest, st.faceSet, st.loopSet⟩ f hwf hff
    have h1 : mu m (⟨rest, st.faceSet, st.loopSet⟩ : FState) + 1 = mu m st := by
      simp only [mu, heq, List.length_cons]
      omega
    have := hext.mule
    omega

theorem floodRun_inv {m : Mesh} {c : Color} {tol : ℚ} {tv sf sv : Bool}
    {seeds : List ℕ} (n : ℕ) (st : FState) (hwf : Mesh.WF m tv)
    (h : Inv m c tol tv sf sv seeds st) :
    Inv m c tol tv sf sv seeds (floodRun m c tol tv sf sv n st) := by
  induction n generalizing st with
  | zero => exact h
  | succ n ih =>
    unfold floodRun
    split
    · exact h
    · exact ih _ (floodStep_inv st hwf h)

theorem floodRun_sub {m : Mesh} {c : Color} {tol : ℚ} {tv sf sv : Bool}
    {seeds : List ℕ} (n : ℕ) (st : FState) (hwf : Mesh.WF m tv)
    (h : Inv m c tol tv sf sv seeds st) :
    st.faceSet ⊆ (floodRun m c tol tv sf sv n st).faceSet ∧
    st.loopSet ⊆ (floodRun m c tol tv sf sv n st).loopSet := by
  induction n generalizing st with
  | zero => exact ⟨subset_rfl, subset_rfl⟩
  | succ n ih =>
    unfold floodRun
    split
    · exact ⟨subset_rfl, subset_rfl⟩
    · have hstep := floodStep_sub st hwf h.toInv0
      have hrest := ih _ (floodStep_inv st hwf h)
      exact ⟨hstep.1.trans hrest.1, hstep.2.trans hrest.2⟩

theorem floodRun_term {m : Mesh} {c : Color} {tol : ℚ} {tv sf sv : Bool}
    {seeds : List ℕ} (n : ℕ) (st : FState) (hwf : Mesh.WF m tv)
    (h : Inv m c tol tv sf sv seeds st) (hmu : mu m st ≤ n) :
    (floodRun m c tol tv sf sv n st).queue = [] := by
  induction n generalizing st with
  | zero =>
    have : st.queue.length = 0 := by
      have := hmu
      unfold mu at this
      omega
    exact List.length_eq_zero.mp this
  | succ n ih =>
    unfold floodRun
    split
    case h_1 heq => exact heq
    case h_2 f rest heq =>
      refine ih _ (floodStep_inv st hwf h) ?_
      have := floodStep_mu st hwf h.toInv0 (by rw [heq]; simp)
      omega

theorem floodRun_empty {m : Mesh} {c : Color} {tol : ℚ} {tv sf sv : Bool}
    (n : ℕ) (st : FState) (h : st.queue = []) : floodRun m c tol tv sf sv n st = st := by
  cases n with
  | zero => rfl
  | succ n => simp only [floodRun, h]

theorem floodRun_succ_ne {m : Mesh} {c : Color} {tol : ℚ} {tv sf sv : Bool}
    (n : ℕ) (st : FState) (h : st.queue ≠ []) :
    floodRun m c tol tv sf sv (n + 1) st =
      floodRun m c tol tv sf sv n (floodStep m c tol tv sf sv st) := by
  cases hq : st.queue with
  | nil => exact absurd hq h
  | cons f rest => simp only [floodRun, hq]

theorem floodRun_add {m : Mesh} {c : Color} {tol : ℚ} {tv sf sv : Bool}
    (a b : ℕ) (st : FState) :
    floodRun m c tol tv sf sv (a + b) st =
      floodRun m c tol tv sf sv b (floodRun m c tol tv sf sv a st) := by
  induction a generalizing st with
  | zero =>
    rw [Nat.zero_add]
    rfl
  | succ a ih =>
    by_cases hq : st.queue = []
    · rw [floodRun_empty _ _ hq, floodRun_empty _ _ hq, floodRun_empty _ _ hq]
    · rw [Nat.succ_add, floodRun_succ_ne _ _ hq, floodRun_succ_ne _ _ hq, ih]

/-! ### The characterization of `connected_loops` -/

theorem Inv_init {m : Mesh} {c : Color} {tol : ℚ} {tv sf sv : Bool} (seeds : List ℕ)
    (hseeds : ∀ s ∈ seeds, s ∈ m.faces) :
    Inv m c tol tv sf sv seeds ⟨seeds.dedup, seeds.toFinset, ∅⟩ := by
  refine ⟨⟨seeds.nodup_dedup, ?_, ?_, ?_, ?_⟩, ?_⟩
  · intro g hg
    exact List.mem_toFinset.mpr (List.mem_dedup.mp hg)
  · intro g hg
    exact hseeds g (List.mem_toFinset.mp hg)
  · intro g hg
    exact Reaches.seed g (List.mem_toFinset.mp hg)
  · intro l hl
    exact absurd hl (Finset.not_mem_empty l)
  · intro g hg hq
    exact absurd (List.mem_dedup.mpr (List.mem_toFinset.mp hg)) hq

theorem mu_init {m : Mesh} (seeds : List ℕ) (hseeds : ∀ s ∈ seeds, s ∈ m.faces) :
    mu m ⟨seeds.dedup, seeds.toFinset, ∅⟩ ≤ m.faces.length := by
  have hsub : seeds.toFinset ⊆ m.faces.toFinset := by
    intro s hs
    exact List.mem_toFinset.mpr (hseeds s (List.mem_toFinset.mp hs))
  have h1 : seeds.dedup.length = seeds.toFinset.card := (List.card_toFinset seeds).symm
  have h2 : (m.faces.toFinset \ seeds.toFinset).card =
      m.faces.toFinset.card - seeds.toFinset.card := Finset.card_sdiff hsub
  have h3 : seeds.toFinset.card ≤ m.faces.toFinset.card := Finset.card_le_card hsub
  have h4 : m.faces.toFinset.card ≤ m.faces.length := m.faces.toFinset_card_le
  show seeds.dedup.length + (m.faces.toFinset \ seeds.toFinset).card ≤ m.faces.length
  omega

theorem floodFinal_queue {m : Mesh} {c : Color} {tol : ℚ} {tv sf sv : Bool}
    {seeds : List ℕ} (hwf : Mesh.WF m tv) (hseeds : ∀ s ∈ seeds, s ∈ m.faces) :
    (floodFinal m c tol tv sf sv seeds).queue = [] :=
  floodRun_term _ _ hwf (Inv_init seeds hseeds) (mu_init seeds hseeds)

theorem floodFinal_faceSet {m : Mesh} {c : Color} {tol : ℚ} {tv sf sv : Bool}
    {seeds : List ℕ} (hwf : Mesh.WF m tv) (hseeds : ∀ s ∈ seeds, s ∈ m.faces) :
    ∀ f, f ∈ (floodFinal m c tol tv sf sv seeds).faceSet ↔
      Reaches m c tol tv sf seeds f := by
  have hinv := floodRun_inv m.faces.length _ hwf
    (@Inv_init m c tol tv sf sv seeds hseeds)
  have hq : (floodRun m c tol tv sf sv m.faces.length
      ⟨seeds.dedup, seeds.toFinset, ∅⟩).queue = [] :=
    @floodFinal_queue m c tol tv sf sv seeds hwf hseeds
  intro f
  constructor
  · exact hinv.freach f
  · intro hr
    induction hr with
    | seed g hg =>
      exact (floodRun_sub _ _ hwf (Inv_init seeds hseeds)).1
        (List.mem_toFinset.mpr hg)
    | step g l cl hg hfm hl hml hcl hm ihg =>
      have hdone := hinv.processed g ihg (by rw [hq]; exact List.not_mem_nil g) hfm
      exact (hdone l hl hml).2 cl hcl hm

theorem floodFinal_loopSet {m : Mesh} {c : Color} {tol : ℚ} {tv sf sv : Bool}
    {seeds : List ℕ} (hwf : Mesh.WF m tv) (hseeds : ∀ s ∈ seeds, s ∈ m.faces) :
    ∀ l, l ∈ (floodFinal m c tol tv sf sv seeds).loopSet ↔
      RecSpec m c tol tv sf sv seeds l := by
  have hinv := floodRun_inv m.faces.length _ hwf
    (@Inv_init m c tol tv sf sv seeds hseeds)
  have hq : (floodRun m c tol tv sf sv m.faces.length
      ⟨seeds.dedup, seeds.toFinset, ∅⟩).queue = [] :=
    @floodFinal_queue m c tol tv sf sv seeds hwf hseeds
  intro l
  constructor
  · exact hinv.lrec l
  · rintro ⟨f, hf, hfm, hl, hml, hv⟩
    have hfF : f ∈ (floodFinal m c tol tv sf sv seeds).faceSet :=
      (floodFinal_faceSet hwf hseeds f).mpr hf
    have hdone := hinv.processed f hfF (by rw [hq]; exact List.not_mem_nil f) hfm
    exact (hdone l hl hml).1 hv

theorem connected_loops_mem {m : Mesh} {seeds : List ℕ} {col : Option Color}
    {tol : ℚ} {tv sf sv : Bool} (hwf : Mesh.WF m tv)
    (hseeds : ∀ s ∈ seeds, s ∈ m.faces) (l : ℕ) :
    l ∈ connected_loops m seeds col tol tv sf sv ↔
      RecSpec m (col.getD (face_color m seeds.headI)) tol tv sf sv seeds l :=
  floodFinal_loopSet hwf hseeds l

/-! ### Monotonicity in the tolerance, and reachable faces are mesh faces -/

theorem color_equal_mono {v1 v2 : Color} {t1 t2 : ℚ} (h12 : t1 ≤ t2)
    (h : color_equal v1 v2 t1 = true) : color_equal v1 v2 t2 = true := by
  unfold color_equal at h ⊢
  exact decide_eq_true ((of_decide_eq_true h).trans h12)

theorem matchC_mono {m : Mesh} {c : Color} {t1 t2 : ℚ} {l : ℕ} (h12 : t1 ≤ t2)
    (h : matchC m c t1 l = true) : matchC m c t2 l = true :=
  color_equal_mono h12 h

theorem Reaches.mono_tol {m : Mesh} {c : Color} {t1 t2 : ℚ} {tv sf : Bool}
    {seeds : List ℕ} {f : ℕ} (h12 : t1 ≤ t2) (h : Reaches m c t1 tv sf seeds f) :
    Reaches m c t2 tv sf seeds f := by
  induction h with
  | seed g hg => exact Reaches.seed g hg
  | step g l cl hg hfm hl hml hcl hm ih =>
    exact Reaches.step g l cl ih hfm hl (matchC_mono h12 hml) hcl (matchC_mono h12 hm)

theorem Reaches_mem_faces {m : Mesh} {c : Color} {tol : ℚ} {tv sf : Bool}
    {seeds : List ℕ} {f : ℕ} (hwf : Mesh.WF m tv)
    (hseeds : ∀ s ∈ seeds, s ∈ m.faces) (h : Reaches m c tol tv sf seeds f) :
    f ∈ m.faces := by
  induction h with
  | seed g hg => exact hseeds g hg
  | step g l cl hg hfm hl hml hcl hm ih => exact ((hwf g ih l hl).2) cl hcl

/-! ### Generic fold helpers -/

theorem foldl_fixed {α β : Type} (lst : List β) (a : α) (f : α → β → α)
    (h : ∀ x b, f x b = x) : lst.foldl f a = a := by
  induction lst generalizing a with
  | nil => rfl
  | cons b lst ih => rw [List.foldl_cons, h a b]; exact ih a

theorem selectFold_mono (p : ℕ → Prop) [DecidablePred p] (lst : List ℕ)
    (sel : ℕ → Bool) (x : ℕ) (hx : sel x = true) :
    (lst.foldl (fun s face =>
      if p face then fun y => if y = face then true else s y else s) sel) x = true := by
  induction lst generalizing sel with
  | nil => exact hx
  | cons f lst ih =>
    rw [List.foldl_cons]
    refine ih _ ?_
    by_cases hp : p f
    · rw [if_pos hp]
      by_cases hxf : x = f <;> simp [hxf, hx]
    · rw [if_neg hp]; exact hx

theorem selectFold_hit (p : ℕ → Prop) [DecidablePred p] (lst : List ℕ)
    (sel : ℕ → Bool) (x : ℕ) (hx : x ∈ lst) (hp : p x) :
    (lst.foldl (fun s face =>
      if p face then fun y => if y = face then true else s y else s) sel) x = true := by
  induction lst generalizing sel with
  | nil => cases hx
  | cons f lst ih =>
    rw [List.foldl_cons]
    rcases List.mem_cons.mp hx with h | h
    · subst h
      refine selectFold_mono p lst _ x ?_
      rw [if_pos hp]
      simp
    · exact ih _ h

/-! ### The accumulation loop of `pick_vertex_color` -/

theorem dist3_nonneg (p q : ℚ × ℚ × ℚ) : 0 ≤ dist3 p q :=
  Real.sqrt_nonneg _

theorem pickStep_foldl (m : Mesh) (location : ℚ × ℚ × ℚ) (ls : List ℕ)
    (t0 : ℝ) (c0 : RColor) :
    ls.foldl (pickStep m location) (t0, c0) =
      (t0 + (ls.map (fun l => dist3 location (m.vertCo (m.loopVert l)))).sum,
       ⟨c0.r + (ls.map (fun l =>
          ((m.loopColor l).r : ℝ) * dist3 location (m.vertCo (m.loopVert l)))).sum,
        c0.g + (ls.map (fun l =>
          ((m.loopColor l).g : ℝ) * dist3 location (m.vertCo (m.loopVert l)))).sum,
        c0.b + (ls.map (fun l =>
          ((m.loopColor l).b : ℝ) * dist3 location (m.vertCo (m.loopVert l)))).sum,
        c0.a + (ls.map (fun l =>
          ((m.loopColor l).a : ℝ) * dist3 location (m.vertCo (m.loopVert l)))).sum⟩) := by
  induction ls generalizing t0 c0 with
  | nil => simp
  | cons l ls ih =>
    rw [List.foldl_cons, pickStep, ih]
    simp only [List.map_cons, List.sum_cons]
    refine Prod.ext ?_ ?_
    · dsimp only
      ring
    · dsimp only
      congr 1 <;> ring

theorem list_sum_zero_of_nonneg {l : List ℝ} (h : ∀ x ∈ l, 0 ≤ x)
    (hs : l.sum = 0) : ∀ x ∈ l, x = 0 := by
  induction l with
  | nil => intro x hx; cases hx
  | cons y l ih =>
    intro x hx
    rw [List.sum_cons] at hs
    have hy : 0 ≤ y := h y (by simp)
    have hl : 0 ≤ l.sum := List.sum_nonneg (fun z hz => h z (List.mem_cons_of_mem _ hz))
    rcases List.mem_cons.mp hx with h' | h'
    · subst h'; linarith
    · exact ih (fun z hz => h z (List.mem_cons_of_mem _ hz)) (by linarith) x h'

/-! ### Claim theorems -/

/-- C7: for all RGBA colors `a`, `b` and every tolerance `t ≥ 0`,
`color_equal a b t` equals `color_equal b a t`, `color_equal a a t` is true,
and `color_equal` holds iff the squared Euclidean distance over the 4
channels divided by 3 is at most `t`. -/
theorem C7_color_equal_props (a b : Color) (t : ℚ) (ht : 0 ≤ t) :
    color_equal a b t = color_equal b a t ∧ color_equal a a t = true ∧
    (color_equal a b t = true ↔
      ((a.r - b.r) ^ 2 + (a.g - b.g) ^ 2 + (a.b - b.b) ^ 2 + (a.a - b.a) ^ 2) / 3
        ≤ t) := by
  refine ⟨?_, ?_, ?_⟩
  · have h : (Color.sub a b).lengthSq = (Color.sub b a).lengthSq := by
      show (a.r - b.r) ^ 2 + (a.g - b.g) ^ 2 + (a.b - b.b) ^ 2 + (a.a - b.a) ^ 2 =
        (b.r - a.r) ^ 2 + (b.g - a.g) ^ 2 + (b.b - a.b) ^ 2 + (b.a - a.a) ^ 2
      ring
    unfold color_equal
    rw [h]
  · apply decide_eq_true
    have h : (Color.sub a a).lengthSq = 0 := by
      show (a.r - a.r) ^ 2 + (a.g - a.g) ^ 2 + (a.b - a.b) ^ 2 + (a.a - a.a) ^ 2 = 0
      ring
    rw [h]
    simpa using ht
  · exact decide_eq_true_iff

theorem C7_witness :
    (0 : ℚ) ≤ 1 / 2 ∧
    (color_equal ⟨1, 0, 0, 1⟩ ⟨0, 1, 0, 1⟩ (1 / 2) =
        color_equal ⟨0, 1, 0, 1⟩ ⟨1, 0, 0, 1⟩ (1 / 2) ∧
      color_equal ⟨1, 0, 0, 1⟩ ⟨1, 0, 0, 1⟩ (1 / 2) = true ∧
      (color_equal ⟨1, 0, 0, 1⟩ ⟨0, 1, 0, 1⟩ (1 / 2) = true ↔
        (((1 : ℚ) - 0) ^ 2 + ((0 : ℚ) - 1) ^ 2 + ((0 : ℚ) - 0) ^ 2 +
          ((1 : ℚ) - 1) ^ 2) / 3 ≤ 1 / 2)) :=
  ⟨by norm_num, C7_color_equal_props ⟨1, 0, 0, 1⟩ ⟨0, 1, 0, 1⟩ (1 / 2) (by norm_num)⟩

/-- C6: the `connected_loops` loop terminates on every well-formed finite
mesh for every input: each face enters the frontier at most once (faces are
added to the visited set at the moment they are enqueued and only unvisited
faces are enqueued), so `m.faces.length` iterations — one per mesh face —
empty the frontier, and any additional fuel leaves the state unchanged. -/
theorem C6_floodRun_terminates (m : Mesh) (c : Color) (tol : ℚ) (tv sf sv : Bool)
    (seeds : List ℕ) (hwf : Mesh.WF m tv) (hseeds : ∀ s ∈ seeds, s ∈ m.faces) :
    (floodRun m c tol tv sf sv m.faces.length
      ⟨seeds.dedup, seeds.toFinset, ∅⟩).queue = [] ∧
    ∀ k, floodRun m c tol tv sf sv (m.faces.length + k)
        ⟨seeds.dedup, seeds.toFinset, ∅⟩ =
      floodRun m c tol tv sf sv m.faces.length ⟨seeds.dedup, seeds.toFinset, ∅⟩ := by
  have hq := @floodRun_term m c tol tv sf sv seeds
    m.faces.length _ hwf (Inv_init seeds hseeds) (mu_init seeds hseeds)
  refine ⟨hq, fun k => ?_⟩
  rw [floodRun_add, floodRun_empty _ _ hq]

theorem C6_witness :
    Mesh.WF meshUniform false ∧
    ((floodRun meshUniform ⟨1, 0, 0, 1⟩ 0 false false false
        meshUniform.faces.length ⟨[0].dedup, [0].toFinset, ∅⟩).queue = [] ∧
      ∀ k, floodRun meshUniform ⟨1, 0, 0, 1⟩ 0 false false false
          (meshUniform.faces.length + k) ⟨[0].dedup, [0].toFinset, ∅⟩ =
        floodRun meshUniform ⟨1, 0, 0, 1⟩ 0 false false false
          meshUniform.faces.length ⟨[0].dedup, [0].toFinset, ∅⟩) :=
  ⟨by decide, C6_floodRun_terminates meshUniform ⟨1, 0, 0, 1⟩ 0 false false false [0]
    (by decide) (by decide)⟩

/-- C5: on the same mesh, seeds, explicit reference color, traversal mode
and masks, the corner set returned by `connected_loops` at tolerance `t1`
is a subset of the one returned at any larger tolerance `t2`: widening the
tolerance never removes a corner. -/
theorem C5_tolerance_monotone (m : Mesh) (seeds : List ℕ) (c : Color) (t1 t2 : ℚ)
    (tv sf sv : Bool) (hwf : Mesh.WF m tv) (hseeds : ∀ s ∈ seeds, s ∈ m.faces)
    (h12 : t1 < t2) :
    connected_loops m seeds (some c) t1 tv sf sv ⊆
      connected_loops m seeds (some c) t2 tv sf sv := by
  intro l hl
  obtain ⟨f, hf, hfm, hlf, hml, hv⟩ := (connected_loops_mem hwf hseeds l).mp hl
  exact (connected_loops_mem hwf hseeds l).mpr
    ⟨f, hf.mono_tol h12.le, hfm, hlf, matchC_mono h12.le hml, hv⟩

theorem C5_witness :
    Mesh.WF meshUniform false ∧ (0 : ℚ) < 1 ∧
    connected_loops meshUniform [0] (some ⟨1, 0, 0, 1⟩) 0 false false false ⊆
      connected_loops meshUniform [0] (some ⟨1, 0, 0, 1⟩) 1 false false false :=
  ⟨by decide, by norm_num,
    C5_tolerance_monotone meshUniform [0] ⟨1, 0, 0, 1⟩ 0 1 false false false
      (by decide) (by decide) (by norm_num)⟩

/-- C3 counterexample: on a seed face whose corners form a color gradient,
at tolerance `0`, no corner matches the default reference color (the seed
face's *average* color), so the flood fill returns the empty corner set
even though the seed set is non-empty and no mask is active — refuting the
claim that the result always contains a corner of a seed face. -/
theorem C3_counterexample :
    connected_loops meshGradient [0] none 0 false false false = ∅ := by
  norm_num [connected_loops, floodRun, floodStep, processFace, processLoop, processConn,
    conns, matchC, fmaskOK, vmaskOK, color_equal, face_color, meshGradient, Color.sub,
    Color.add, Color.divQ, Color.lengthSq, List.dedup, List.foldl]

/-- C3 (amended): with a non-empty seed set and the default reference color
(the average color of the first seed face), the result contains every
corner of a seed face that matches that reference within tolerance and
passes the masks; in particular, when such a corner exists the result is
non-empty. -/
theorem C3_seed_corner_recorded (m : Mesh) (seeds : List ℕ) (tol : ℚ)
    (tv sf sv : Bool) (hwf : Mesh.WF m tv) (hseeds : ∀ s ∈ seeds, s ∈ m.faces)
    (f0 l : ℕ) (hf0 : f0 ∈ seeds) (hl : l ∈ m.faceLoops f0)
    (hfm : fmaskOK m sf f0 = true)
    (hml : matchC m (face_color m seeds.headI) tol l = true)
    (hv : vmaskOK m sv l = true) :
    l ∈ connected_loops m seeds none tol tv sf sv ∧
    (connected_loops m seeds none tol tv sf sv).Nonempty := by
  have hmem := (@connected_loops_mem m seeds none tol tv sf sv hwf hseeds l).mpr
    ⟨f0, Reaches.seed f0 hf0, hfm, hl, hml, hv⟩
  exact ⟨hmem, ⟨l, hmem⟩⟩

theorem C3_witness :
    Mesh.WF meshUniform false ∧
    (0 ∈ connected_loops meshUniform [0] none 0 false false false ∧
      (connected_loops meshUniform [0] none 0 false false false).Nonempty) :=
  ⟨by decide,
    C3_seed_corner_recorded meshUniform [0] 0 false false false (by decide) (by decide)
      0 0 (by decide) (by decide) (by decide)
      (by norm_num [matchC, color_equal, face_color, meshUniform, Color.sub, Color.add,
        Color.divQ, Color.lengthSq, List.headI, List.foldl])
      (by decide)⟩

/-- C1 counterexample: on a three-face chain whose middle face is
unselected, with the face mask active, the source's flood fill (which
skips unselected faces entirely) returns only the seed face's corners,
while the record-gating-only variant described by the claim also reaches
and records the far face's corners — the two result sets differ. -/
theorem C1_counterexample :
    connected_loops meshChain [0] none 0 false true false ≠
      connected_loops_record_gated meshChain [0] none 0 false true false ∧
    4 ∉ connected_loops meshChain [0] none 0 false true false ∧
    4 ∈ connected_loops_record_gated meshChain [0] none 0 false true false := by
  have h4n : 4 ∉ connected_loops meshChain [0] none 0 false true false := by
    norm_num [connected_loops, floodRun, floodStep, processFace, processLoop,
      processConn, conns, matchC, fmaskOK, vmaskOK, color_equal, face_color, meshChain,
      Color.sub, Color.add, Color.divQ, Color.lengthSq, List.dedup, List.foldl]
  have h4y : 4 ∈ connected_loops_record_gated meshChain [0] none 0 false true false := by
    norm_num [connected_loops_record_gated, floodRunRG, processFaceRG, processLoopRG,
      processConn, conns, matchC, fmaskOK, vmaskOK, color_equal, face_color, meshChain,
      Color.sub, Color.add, Color.divQ, Color.lengthSq, List.dedup, List.foldl]
  exact ⟨fun h => h4n (h.symm ▸ h4y), h4n, h4y⟩

/-- C1 (amended): when the face mask is active, an unselected popped face is
skipped entirely — the mask gates traversal as well as recording — so every
corner the flood fill records lies on a masked-selected face; the result is
not in general equal to the record-gating-only set. -/
theorem C1_mask_gates_traversal (m : Mesh) (seeds : List ℕ) (col : Option Color)
    (tol : ℚ) (tv sv : Bool) (hwf : Mesh.WF m tv)
    (hseeds : ∀ s ∈ seeds, s ∈ m.faces) :
    ∀ l ∈ connected_loops m seeds col tol tv true sv,
      m.faceSelect (m.loopFace l) = true := by
  intro l hl
  obtain ⟨f, hf, hfm, hlf, hml, hv⟩ := (connected_loops_mem hwf hseeds l).mp hl
  have hff : f ∈ m.faces := Reaches_mem_faces hwf hseeds hf
  have hlo : m.loopFace l = f := (hwf f hff l hlf).1
  rw [hlo]
  simpa [fmaskOK] using hfm

theorem C1_witness :
    Mesh.WF meshChain false ∧
    ∀ l ∈ connected_loops meshChain [0] none 0 false true false,
      meshChain.faceSelect (meshChain.loopFace l) = true :=
  ⟨by decide,
    C1_mask_gates_traversal meshChain [0] none 0 false false (by decide) (by decide)⟩

/-- C2 counterexample: face `1` is blue and pre-selected, face `2` is blue
and unselected; the reference color is taken from the *first* selected face
(`0`, red), so face `2` — although it matches selected face `1`'s average
color exactly — is not selected by `select_similar_by_color_op_main`,
refuting "matches the average color of any of the pre-selected faces". -/
theorem C2_counterexample :
    meshTwoTone.faceSelect 1 = true ∧
    color_equal (face_color meshTwoTone 1) (face_color meshTwoTone 2) 0 = true ∧
    (select_similar_by_color_op_main meshTwoTone 0).faceSelect 2 = false := by
  refine ⟨by decide, ?_, ?_⟩
  · norm_num [color_equal, face_color, meshTwoTone, Color.sub, Color.add, Color.divQ,
      Color.lengthSq, List.foldl]
  · norm_num [select_similar_by_color_op_main, color_equal, face_color, meshTwoTone,
      Color.sub, Color.add, Color.divQ, Color.lengthSq, List.foldl, List.filter,
      List.headI]

/-- C2 (amended): `select_similar_by_color_op_main` selects every mesh face
whose average color matches, within tolerance, the average color of the
*first* pre-selected face (a single arbitrary selected face, not each of
them). -/
theorem C2_select_similar_first_selected (m : Mesh) (tol : ℚ) (f : ℕ)
    (hf : f ∈ m.faces)
    (hmatch : color_equal
      (face_color m ((m.faces.filter (fun face => m.faceSelect face)).headI))
      (face_color m f) tol = true) :
    (select_similar_by_color_op_main m tol).faceSelect f = true := by
  exact selectFold_hit
    (fun face => color_equal
      (face_color m ((m.faces.filter (fun face => m.faceSelect face)).headI))
      (face_color m face) tol = true)
    m.faces m.faceSelect f hf hmatch

theorem C2_witness :
    0 ∈ meshTwoTone.faces ∧
    color_equal
      (face_color meshTwoTone
        ((meshTwoTone.faces.filter (fun face => meshTwoTone.faceSelect face)).headI))
      (face_color meshTwoTone 0) 0 = true ∧
    (select_similar_by_color_op_main meshTwoTone 0).faceSelect 0 = true := by
  have h1 : 0 ∈ meshTwoTone.faces := by decide
  have h2 : color_equal
      (face_color meshTwoTone
        ((meshTwoTone.faces.filter (fun face => meshTwoTone.faceSelect face)).headI))
      (face_color meshTwoTone 0) 0 = true := by
    norm_num [color_equal, face_color, meshTwoTone, Color.sub, Color.add, Color.divQ,
      Color.lengthSq, List.foldl, List.filter, List.headI]
  exact ⟨h1, h2, C2_select_similar_first_selected meshTwoTone 0 0 h1 h2⟩

/-- C10: both selection operators only grow the selection: a face selected
before `select_linked_by_color_op_main` or
`select_similar_by_color_op_main` is still selected afterwards, because
each operator only ever sets faces' selected flag to true. -/
theorem C10_selection_grows (m : Mesh) (tol : ℚ) (f : ℕ)
    (hf : m.faceSelect f = true) :
    (select_linked_by_color_op_main m).faceSelect f = true ∧
    (select_similar_by_color_op_main m tol).faceSelect f = true := by
  constructor
  · have h : (select_linked_by_color_op_main m).faceSelect f =
        if f ∈ (connected_loops m (m.faces.filter (fun face => m.faceSelect face)) none
          (1 / 1000) true false false).image m.loopFace then true
        else m.faceSelect f := rfl
    rw [h]
    split
    · rfl
    · exact hf
  · exact selectFold_mono
      (fun face => color_equal
        (face_color m ((m.faces.filter (fun face => m.faceSelect face)).headI))
        (face_color m face) tol = true)
      m.faces m.faceSelect f hf

theorem C10_witness :
    meshTwoTone.faceSelect 0 = true ∧
    ((select_linked_by_color_op_main meshTwoTone).faceSelect 0 = true ∧
      (select_similar_by_color_op_main meshTwoTone 0).faceSelect 0 = true) :=
  ⟨by decide, C10_selection_grows meshTwoTone 0 0 (by decide)⟩

/-- C9: a ray-cast miss makes the calling operation a no-op for that
sample: with `result = false`, `fill_op_main` leaves every corner color
unchanged (it returns the mesh as is), and when every sample ray of
`draw_face_op_main` misses, the stroke paints nothing; the miss is
signalled only through the false/empty result and no error is raised. -/
theorem C9_no_hit_no_op (m : Mesh) (target_color : Color) (index : ℕ)
    (color : ℚ × ℚ × ℚ) (tol : ℚ) (continuous tv : Bool)
    (ray_hit : ℚ × ℚ → Option ℕ) (x1 y1 x2 y2 : ℤ) (color2 : ℚ × ℚ × ℚ)
    (hmiss : ∀ p, ray_hit p = none) :
    fill_op_main m false target_color index color tol continuous tv = m ∧
    draw_face_op_main m ray_hit x1 y1 x2 y2 color2 = m := by
  constructor
  · rfl
  · simp only [draw_face_op_main]
    refine foldl_fixed _ _ _ ?_
    intro mm i
    simp only [hmiss]
    rfl

theorem C9_witness :
    fill_op_main meshUniform false ⟨0, 0, 0, 0⟩ 0 (0, 0, 0) 0 true false =
      meshUniform ∧
    draw_face_op_main meshUniform (fun _ => none) 0 0 5 7 (1, 0, 0) = meshUniform :=
  C9_no_hit_no_op meshUniform ⟨0, 0, 0, 0⟩ 0 (0, 0, 0) 0 true false
    (fun _ => none) 0 0 5 7 (1, 0, 0) (fun _ => rfl)

/-- C8: invoked with two identical screen points, the pixel distance is `0`
and the step count is `max 1 ⌊0 / 2⌋ = 1`, so exactly one ray is cast, at
interpolation parameter `t = 1/2` (the midpoint, which for identical
endpoints is the point itself), painting at most the single face that one
ray hits. -/
theorem C8_degenerate_stroke (m : Mesh) (ray_hit : ℚ × ℚ → Option ℕ) (x y : ℤ)
    (color : ℚ × ℚ × ℚ) :
    draw_step_count x y x y = 1 ∧
    draw_face_op_main m ray_hit x y x y color =
      draw_sample m (ray_hit ((x : ℚ), (y : ℚ))) ⟨color.1, color.2.1, color.2.2, 1⟩
        (m.usePaintMask || m.usePaintMaskVertex) := by
  have hn : draw_step_count x y x y = 1 := by
    unfold draw_step_count
    norm_num
  refine ⟨hn, ?_⟩
  have hx : (1 - (1 : ℚ) / 2) * (x : ℚ) + 1 / 2 * (x : ℚ) = (x : ℚ) := by ring
  have hy : (1 - (1 : ℚ) / 2) * (y : ℚ) + 1 / 2 * (y : ℚ) = (y : ℚ) := by ring
  simp only [draw_face_op_main, hn]
  rw [show List.range 1 = [0] from rfl]
  simp only [List.foldl_cons, List.foldl_nil, eq_self_iff_true, if_true]
  rw [hx, hy]

/-- C4: the weighted hit sample of `pick_vertex_color` returns, per
channel, the sum over the hit face's corners of corner color times the
Euclidean distance from the hit point to the corner's vertex, divided by
the sum of those distances — weighting by distance, not inverse distance —
and when the distance sum is zero it returns the zero color `(0,0,0,0)`
without dividing. -/
theorem C4_pick_weighted_by_distance (m : Mesh) (location : ℚ × ℚ × ℚ) (index : ℕ) :
    (pick_vertex_color m (some (location, index))).2.1 =
      (if ((m.faceLoops index).map
          (fun l => dist3 location (m.vertCo (m.loopVert l)))).sum = 0 then
        (⟨0, 0, 0, 0⟩ : RColor)
      else
        ⟨((m.faceLoops index).map (fun l =>
            ((m.loopColor l).r : ℝ) * dist3 location (m.vertCo (m.loopVert l)))).sum /
            ((m.faceLoops index).map
              (fun l => dist3 location (m.vertCo (m.loopVert l)))).sum,
          ((m.faceLoops index).map (fun l =>
            ((m.loopColor l).g : ℝ) * dist3 location (m.vertCo (m.loopVert l)))).sum /
            ((m.faceLoops index).map
              (fun l => dist3 location (m.vertCo (m.loopVert l)))).sum,
          ((m.faceLoops index).map (fun l =>
            ((m.loopColor l).b : ℝ) * dist3 location (m.vertCo (m.loopVert l)))).sum /
            ((m.faceLoops index).map
              (fun l => dist3 location (m.vertCo (m.loopVert l)))).sum,
          ((m.faceLoops index).map (fun l =>
            ((m.loopColor l).a : ℝ) * dist3 location (m.vertCo (m.loopVert l)))).sum /
            ((m.faceLoops index).map
              (fun l => dist3 location (m.vertCo (m.loopVert l)))).sum⟩) := by
  have hacc := pickStep_foldl m location (m.faceLoops index) 0 ⟨0, 0, 0, 0⟩
  simp only [pick_vertex_color]
  rw [hacc]
  simp only [zero_add]
  have hDnn : 0 ≤ ((m.faceLoops index).map
      (fun l => dist3 location (m.vertCo (m.loopVert l)))).sum := by
    refine List.sum_nonneg ?_
    intro z hz
    obtain ⟨l, hl, rfl⟩ := List.mem_map.mp hz
    exact dist3_nonneg _ _
  by_cases h0 : ((m.faceLoops index).map
      (fun l => dist3 location (m.vertCo (m.loopVert l)))).sum = 0
  · have hgt : ¬ ((m.faceLoops index).map
        (fun l => dist3 location (m.vertCo (m.loopVert l)))).sum > 0 := by
      rw [h0]
      exact lt_irrefl 0
    rw [if_pos h0, if_neg hgt]
    have hall : ∀ l ∈ m.faceLoops index,
        dist3 location (m.vertCo (m.loopVert l)) = 0 := by
      intro l hl
      refine list_sum_zero_of_nonneg ?_ h0 _ (List.mem_map_of_mem _ hl)
      intro z hz
      obtain ⟨l', hl', rfl⟩ := List.mem_map.mp hz
      exact dist3_nonneg _ _
    have hz : ∀ chan : ℕ → ℝ, ((m.faceLoops index).map (fun l =>
        chan l * dist3 location (m.vertCo (m.loopVert l)))).sum = 0 := by
      intro chan
      refine List.sum_eq_zero ?_
      intro z hmem
      obtain ⟨l, hl, rfl⟩ := List.mem_map.mp hmem
      rw [hall l hl, mul_zero]
    rw [hz (fun l => ((m.loopColor l).r : ℝ)), hz (fun l => ((m.loopColor l).g : ℝ)),
      hz (fun l => ((m.loopColor l).b : ℝ)), hz (fun l => ((m.loopColor l).a : ℝ))]
  · have hgt : ((m.faceLoops index).map
        (fun l => dist3 location (m.vertCo (m.loopVert l)))).sum > 0 :=
      lt_of_le_of_ne hDnn (Ne.symm h0)
    rw [if_neg h0, if_pos hgt]

end LowPoly
